import Mathlib

/-!
Verification of the link-discovery, deduplication and file-organization
pipeline of `src/main.py` (web-file-downloader).

The Python program is shallowly embedded: pure computations become Lean
functions over `String` / `List Char`; the filesystem is a list of existing
paths; the network, the HTML parser and JSON parsing are oracle parameters
(they are library calls, not code of this repository).  Python standard
library functions used by the program (`str.lower`, `str.endswith`,
`os.path.basename`, `os.path.join`, `os.path.splitext`, `urlparse().path`,
`str(int)` formatting) are modelled for the ASCII inputs the program feeds
them.
-/

/-- Models Python `str.lower()` (ASCII case folding, which is what the
program's URLs and extensions use). -/
def py_lower (s : String) : String := ⟨s.data.map Char.toLower⟩

/-- Models Python `str.endswith(suffix)`: literal suffix comparison. -/
def py_endswith (s suffix : String) : Bool := suffix.data.isSuffixOf s.data

/-- Models Python `str.capitalize()`: first character upper-cased, the rest
lower-cased. -/
def py_capitalize (s : String) : String :=
  match s.data with
  | [] => ⟨[]⟩
  | c :: rest => ⟨Char.toUpper c :: rest.map Char.toLower⟩

/-- Models Python `str.replace(".", "")`: removes every dot. -/
def py_remove_dots (s : String) : String := ⟨s.data.filter (fun c => c != '.')⟩

/-- Models `os.path.basename`: the part of the path after the last slash. -/
def basename (p : String) : String :=
  ⟨(p.data.reverse.takeWhile (fun c => c != '/')).reverse⟩

/-- Characters of a list up to (excluding) the first occurrence of a marker
character; used to strip query and fragment parts of a URL. -/
def takeUntil (c : Char) (cs : List Char) : List Char :=
  cs.takeWhile (fun d => d != c)

/-- Looks for a "://" scheme separator and, when found, returns what follows
the authority component (the path onwards). -/
def splitSchemeAuth : List Char → Option (List Char)
  | [] => none
  | ':' :: '/' :: '/' :: rest => some (rest.dropWhile (fun c => c != '/'))
  | _ :: rest => splitSchemeAuth rest

/-- Models Python `urllib.parse.urlparse(url).path` for the absolute
http(s)-style URLs the program handles: the fragment and query are stripped
and, when a "scheme://authority" prefix is present, dropped. -/
def urlparse_path (url : String) : String :=
  let cs := takeUntil '?' (takeUntil '#' url.data)
  match splitSchemeAuth cs with
  | some rest => ⟨rest⟩
  | none => ⟨cs⟩

/-- Models `os.path.join(a, b)` for POSIX paths: an absolute second component
replaces the first, otherwise the components are glued with a single slash. -/
def pjoin (a b : String) : String :=
  if b.data.head? = some '/' then b
  else if a.data = [] then b
  else if a.data.getLast? = some '/' then ⟨a.data ++ b.data⟩
  else ⟨a.data ++ '/' :: b.data⟩

/-- Index at which the extension of a (slash-free) filename starts, following
Python `os.path.splitext`: the last dot, provided a non-dot character occurs
before it (so ".bashrc" has no extension). -/
def extSplitIndex (cs : List Char) : Option Nat :=
  match ((List.range cs.length).filter (fun i => cs.getD i ' ' == '.')).getLast? with
  | none => none
  | some i => if (List.range i).any (fun j => cs.getD j ' ' != '.') then some i else none

/-- Models `os.path.splitext` on the slash-free filenames the program splits:
returns the root and the extension (the extension keeps its leading dot). -/
def splitext (p : String) : String × String :=
  match extSplitIndex p.data with
  | none => (p, "")
  | some i => (⟨p.data.take i⟩, ⟨p.data.drop i⟩)

/-- Decimal digit character for a value below ten. -/
def digitChar (n : Nat) : Char := Char.ofNat (48 + n)

/-- Fueled decimal rendering of a natural number, least significant digit
produced last; fuel `n + 1` is always sufficient. -/
def natReprAux : Nat → Nat → List Char
  | 0, _ => []
  | fuel + 1, n =>
    if n < 10 then [digitChar n]
    else natReprAux fuel (n / 10) ++ [digitChar (n % 10)]

/-- Models Python `str(n)` for a natural number: its decimal digits. -/
def natReprL (n : Nat) : List Char := natReprAux (n + 1) n

/-- Value of a decimal digit string, used to invert `natReprL`. -/
def digitsVal : List Char → Nat
  | [] => 0
  | c :: cs => (c.toNat - 48) * 10 ^ cs.length + digitsVal cs

theorem digitsVal_append_singleton (xs : List Char) (c : Char) :
    digitsVal (xs ++ [c]) = 10 * digitsVal xs + (c.toNat - 48) := by
  induction xs with
  | nil => simp [digitsVal]
  | cons d xs ih =>
    rw [List.cons_append, digitsVal, digitsVal, ih, List.length_append]
    simp only [List.length_cons, List.length_nil]
    ring

theorem toNat_digitChar (m : Nat) (h : m < 10) : (digitChar m).toNat = 48 + m := by
  interval_cases m <;> decide

theorem digitsVal_natReprAux (fuel n : Nat) (h : n + 1 ≤ fuel) :
    digitsVal (natReprAux fuel n) = n := by
  induction fuel generalizing n with
  | zero => omega
  | succ fuel ih =>
    by_cases hn : n < 10
    · simp [natReprAux, hn, digitsVal, toNat_digitChar n hn]
    · have hdiv : n / 10 + 1 ≤ fuel := by
        have h1 : n / 10 < n := Nat.div_lt_self (by omega) (by omega)
        omega
      simp only [natReprAux, hn, if_false, digitsVal_append_singleton, ih _ hdiv,
        toNat_digitChar (n % 10) (Nat.mod_lt n (by omega))]
      omega

theorem digitsVal_natReprL (n : Nat) : digitsVal (natReprL n) = n :=
  digitsVal_natReprAux (n + 1) n (Nat.le_refl _)

theorem natReprL_injective : Function.Injective natReprL := by
  intro a b h
  have ha := digitsVal_natReprL a
  have hb := digitsVal_natReprL b
  rw [h] at ha
  omega

theorem natReprAux_ne_nil (fuel n : Nat) (h : 1 ≤ fuel) : natReprAux fuel n ≠ [] := by
  cases fuel with
  | zero => omega
  | succ fuel =>
    by_cases hn : n < 10 <;> simp [natReprAux, hn]

theorem natReprL_ne_nil (n : Nat) : natReprL n ≠ [] :=
  natReprAux_ne_nil (n + 1) n (by omega)

/-!
Embedded source functions, in source order.
-/

/-- JSON values, as produced by Python `json.load`. -/
inductive JsonValue where
  | null : JsonValue
  | bool (b : Bool) : JsonValue
  | num (n : Int) : JsonValue
  | str (s : String) : JsonValue
  | arr (xs : List JsonValue) : JsonValue
  | obj (fields : List (String × JsonValue)) : JsonValue

mutual

/-- Models Python equality on JSON-derived values (structural). -/
def jsonBeq : JsonValue → JsonValue → Bool
  | JsonValue.null, JsonValue.null => true
  | JsonValue.bool a, JsonValue.bool b => a == b
  | JsonValue.num a, JsonValue.num b => a == b
  | JsonValue.str a, JsonValue.str b => a == b
  | JsonValue.arr xs, JsonValue.arr ys => jsonBeqList xs ys
  | JsonValue.obj xs, JsonValue.obj ys => jsonBeqFields xs ys
  | _, _ => false

/-- Elementwise equality of JSON lists. -/
def jsonBeqList : List JsonValue → List JsonValue → Bool
  | [], [] => true
  | x :: xs, y :: ys => jsonBeq x y && jsonBeqList xs ys
  | _, _ => false

/-- Elementwise equality of JSON object fields. -/
def jsonBeqFields : List (String × JsonValue) → List (String × JsonValue) → Bool
  | [], [] => true
  | x :: xs, y :: ys => x.1 == y.1 && jsonBeq x.2 y.2 && jsonBeqFields xs ys
  | _, _ => false

end

/-- Whether a JSON-derived Python value is hashable (may be a set element):
lists and dicts are not, scalars and strings are. -/
def jsonHashable : JsonValue → Bool
  | JsonValue.arr _ => false
  | JsonValue.obj _ => false
  | _ => true

/-- Set-construction order of Python `set(iterable)`: keep the first
occurrence of each element, dropping later duplicates. -/
def pyDedup (xs : List JsonValue) : List JsonValue :=
  xs.foldl (fun acc x => if acc.any (fun y => jsonBeq y x) then acc else acc ++ [x]) []

/-- Models Python `set(x)` applied to a JSON-derived value `x`: a string gives
the set of its one-character strings, a list the set of its (hashable)
elements, a dict the set of its keys; any other value (or a list with an
unhashable element) raises TypeError, modelled as `none`. -/
def pySet : JsonValue → Option (List JsonValue)
  | JsonValue.str s => some (pyDedup (s.data.map (fun c => JsonValue.str ⟨[c]⟩)))
  | JsonValue.arr xs => if xs.all jsonHashable then some (pyDedup xs) else none
  | JsonValue.obj fields => some (pyDedup (fields.map (fun p => JsonValue.str p.1)))
  | _ => none

/-- Result of loading the history: the set obtained (represented as its
duplicate-free element list) together with whether a warning was printed (the
two except-branches of the source both warn and fall back to the empty set). -/
structure LoadResult where
  history : List JsonValue
  warned : Bool

/-- Embeds `load_download_history` (src/main.py lines 39-61).  The file system
read is the `file_content` argument (`none` when the file does not exist) and
`json_parse` is the oracle for Python `json.load` (`none` when it raises
JSONDecodeError).  A parse failure, or a TypeError from `set(...)`, is caught,
warned about, and yields the empty set; an absent file yields the empty set
silently.  The Lean function is total: loading never raises. -/
def load_download_history (file_content : Option String)
    (json_parse : String → Option JsonValue) : LoadResult :=
  match file_content with
  | none => ⟨[], false⟩
  | some content =>
    match json_parse content with
    | none => ⟨[], true⟩
    | some j =>
      match pySet j with
      | some s => ⟨s, false⟩
      | none => ⟨[], true⟩

/-- Loop of `find_download_links` (src/main.py lines 113-120): each href is
resolved against the base URL by the `urljoin` oracle; the resolved URL is
kept when its lower-cased form literally ends with one of the allowed
extension suffixes and it was not already collected. -/
def find_download_links_go (urljoin : String → String → String) (base_url : String)
    (allowed_extensions : List String) (found_links : List String) :
    List String → List String
  | [] => found_links
  | href :: rest =>
    let absolute_url := urljoin base_url href
    if allowed_extensions.any (fun ext => py_endswith (py_lower absolute_url) ext) &&
        !(found_links.contains absolute_url) then
      find_download_links_go urljoin base_url allowed_extensions
        (found_links ++ [absolute_url]) rest
    else
      find_download_links_go urljoin base_url allowed_extensions found_links rest

/-- Embeds `find_download_links` (src/main.py lines 104-124).  The page markup
is represented by the list of href attributes of its anchor elements, in
document order, as BeautifulSoup yields them; `urljoin` is the oracle for
`urllib.parse.urljoin`. -/
def find_download_links (urljoin : String → String → String) (hrefs : List String)
    (base_url : String) (allowed_extensions : List String) : List String :=
  find_download_links_go urljoin base_url allowed_extensions [] hrefs

/-- Embeds `download_file` (src/main.py lines 127-169).  The file system is
the list `fs` of existing paths; `fetch` is the network oracle (`none` models
any requests error).  Returns the result value of the source function together
with the file system after the call: no usable filename fails with no fetch;
an already existing target returns it with no fetch; otherwise the body is
fetched and written (a fetch failure leaves the file system unchanged). -/
def download_file (fetch : String → Option Unit) (fs : List String)
    (file_url destination_folder : String) : Option String × List String :=
  let file_name := basename (urlparse_path file_url)
  if file_name = "" then (none, fs)
  else
    let file_path := pjoin destination_folder file_name
    if fs.contains file_path then (some file_path, fs)
    else
      match fetch file_url with
      | some _ => (some file_path, fs ++ [file_path])
      | none => (none, fs)

/-- Candidate filename with the parenthesised numeric disambiguator of
src/main.py line 226: root, open parenthesis, decimal counter, close
parenthesis, extension. -/
def mkCand (stem ext : String) (k : Nat) : String :=
  ⟨stem.data ++ '(' :: natReprL k ++ ')' :: ext.data⟩

/-- While-loop of `organize_file` (src/main.py lines 223-228), with fuel
standing for the iteration bound proved sufficient below: while the current
candidate path exists, move to the next numbered candidate. -/
def resolve_collision_loop (fs : List String) (dir stem ext : String) :
    Nat → String → Nat → String
  | 0, final, _ => final
  | fuel + 1, final, counter =>
    if fs.contains final then
      resolve_collision_loop fs dir stem ext fuel (pjoin dir (mkCand stem ext counter))
        (counter + 1)
    else final

/-- Collision resolution of `organize_file` (src/main.py lines 221-228): the
first free path among the plain destination name and the numbered candidates
mkCand 1, mkCand 2, ... -/
def resolve_collision (fs : List String) (dir file_name : String) : String :=
  resolve_collision_loop fs dir (splitext file_name).1 (splitext file_name).2
    (fs.length + 1) (pjoin dir file_name) 1

/-- Embeds `organize_file` (src/main.py lines 172-241).  The file system is
the list `fs` of existing paths; `move_ok` is the oracle for whether
`shutil.move` succeeds.  Returns the result value together with the file
system after the call: a missing file, an unknown rule, or a failed move all
return `none` and leave the file system unchanged; a successful move removes
the staged path and adds the collision-resolved destination path. -/
def organize_file (move_ok : Bool) (fs : List String) (today : String)
    (file_path base_download_folder rule_type : String) : Option String × List String :=
  if file_path = "" || !(fs.contains file_path) then (none, fs)
  else
    let file_name := basename file_path
    let file_extension := py_remove_dots (py_lower (splitext file_name).2)
    let sub? : Option (String × String) :=
      if rule_type = "date" then some (today, "")
      else if rule_type = "type" then
        some (if file_extension ≠ "" then py_capitalize file_extension else "Otros", "")
      else if rule_type = "type_then_date" then
        some (if file_extension ≠ "" then py_capitalize file_extension else "Otros", today)
      else none
    match sub? with
    | none => (none, fs)
    | some (subfolder_1, subfolder_2) =>
      let final_destination_dir :=
        if subfolder_2 ≠ "" then pjoin (pjoin base_download_folder subfolder_1) subfolder_2
        else pjoin base_download_folder subfolder_1
      let final_file_path := resolve_collision fs final_destination_dir file_name
      if move_ok then (some final_file_path, fs.erase file_path ++ [final_file_path])
      else (none, fs)

/-- Run state threaded through the main loop: the file system and the
in-memory download history. -/
structure RunState where
  fs : List String
  history : Finset String
deriving DecidableEq

/-- Per-link body of the main loop (src/main.py lines 311-327): skip when the
link is in history and force mode is off; otherwise download, then organize,
and only when both succeed add the link to the history. -/
def process_link (force : Bool) (fetch : String → Option Unit) (move_ok : Bool)
    (today base rule : String) (st : RunState) (link : String) : RunState :=
  if link ∈ st.history ∧ force = false then st
  else
    match download_file fetch st.fs link base with
    | (none, fs') => ⟨fs', st.history⟩
    | (some downloaded_file_path, fs') =>
      match organize_file move_ok fs' today downloaded_file_path base rule with
      | (none, fs2) => ⟨fs2, st.history⟩
      | (some _, fs2) => ⟨fs2, insert link st.history⟩

/-- Inner loop over the links extracted from one page. -/
def process_links (force : Bool) (fetch : String → Option Unit) (move_ok : Bool)
    (today base rule : String) : RunState → List String → RunState
  | st, [] => st
  | st, link :: rest =>
    process_links force fetch move_ok today base rule
      (process_link force fetch move_ok today base rule st link) rest

/-- Per-URL body of the main loop (src/main.py lines 304-334): fetch the page
(`page` is the oracle for `get_page_content`, giving the hrefs of the page or
`none` on failure), extract the download links, process each. -/
def run_url (force : Bool) (fetch : String → Option Unit) (move_ok : Bool)
    (today base rule : String) (urljoin : String → String → String)
    (page : String → Option (List String)) (allowed_extensions : List String)
    (st : RunState) (url : String) : RunState :=
  match page url with
  | none => st
  | some hrefs =>
    process_links force fetch move_ok today base rule st
      (find_download_links urljoin hrefs url allowed_extensions)

/-- Loop over all configured target URLs. -/
def run_urls (force : Bool) (fetch : String → Option Unit) (move_ok : Bool)
    (today base rule : String) (urljoin : String → String → String)
    (page : String → Option (List String)) (allowed_extensions : List String)
    (st : RunState) (target_urls : List String) : RunState :=
  target_urls.foldl (run_url force fetch move_ok today base rule urljoin page allowed_extensions) st

/-- Save decision of src/main.py lines 336-340: the history file is rewritten
exactly when the history set has more elements than it had at load time. -/
def main_saves (initial_downloaded_count : Nat) (history : Finset String) : Bool :=
  initial_downloaded_count < history.card

/-- Embeds the body of `main` after configuration load (src/main.py lines
271-340): abort (`none`) when the target URLs or the allowed extensions are
empty, otherwise run the pipeline over every URL and reach the history
persistence decision, returning the final state and whether the history file
was saved. -/
def main_run (force : Bool) (fetch : String → Option Unit) (move_ok : Bool)
    (today base rule : String) (urljoin : String → String → String)
    (page : String → Option (List String)) (target_urls allowed_extensions : List String)
    (fs0 : List String) (h0 : Finset String) : Option (RunState × Bool) :=
  if target_urls = [] then none
  else if allowed_extensions = [] then none
  else
    let final := run_urls force fetch move_ok today base rule urljoin page
      allowed_extensions ⟨fs0, h0⟩ target_urls
    some (final, main_saves h0.card final.history)

/-!
Lemmas about link extraction.
-/

theorem find_download_links_go_mem (urljoin : String → String → String) (base_url : String)
    (allowed_extensions : List String) (url : String) :
    ∀ (hrefs found : List String),
      url ∈ find_download_links_go urljoin base_url allowed_extensions found hrefs ↔
        url ∈ found ∨ ((∃ href ∈ hrefs, urljoin base_url href = url) ∧
          allowed_extensions.any (fun ext => py_endswith (py_lower url) ext) = true) := by
  intro hrefs
  induction hrefs with
  | nil =>
    intro found
    simp [find_download_links_go]
  | cons href rest ih =>
    intro found
    by_cases hmatch : allowed_extensions.any
        (fun ext => py_endswith (py_lower (urljoin base_url href)) ext) = true
    · by_cases hdup : found.contains (urljoin base_url href) = true
      · have hmem : urljoin base_url href ∈ found := by
          simpa [List.contains, List.elem_iff] using hdup
        have hcond : (allowed_extensions.any
            (fun ext => py_endswith (py_lower (urljoin base_url href)) ext) &&
              !(found.contains (urljoin base_url href))) = false := by
          rw [hdup]
          simp
        have hstep : find_download_links_go urljoin base_url allowed_extensions found
            (href :: rest) = find_download_links_go urljoin base_url allowed_extensions
              found rest := by
          simp only [find_download_links_go]
          rw [hcond]
          simp
        rw [hstep, ih found]
        constructor
        · rintro (h | ⟨⟨h2, hh2, hj⟩, hm⟩)
          · exact Or.inl h
          · exact Or.inr ⟨⟨h2, List.mem_cons_of_mem _ hh2, hj⟩, hm⟩
        · rintro (h | ⟨⟨h2, hh2, hj⟩, hm⟩)
          · exact Or.inl h
          · rcases List.mem_cons.mp hh2 with h2eq | h2mem
            · exact Or.inl (by rw [← hj, h2eq]; exact hmem)
            · exact Or.inr ⟨⟨h2, h2mem, hj⟩, hm⟩
      · have hdup' : found.contains (urljoin base_url href) = false := by
          simpa using hdup
        have hcond : (allowed_extensions.any
            (fun ext => py_endswith (py_lower (urljoin base_url href)) ext) &&
              !(found.contains (urljoin base_url href))) = true := by
          rw [hmatch, hdup']
          rfl
        have hstep : find_download_links_go urljoin base_url allowed_extensions found
            (href :: rest) = find_download_links_go urljoin base_url allowed_extensions
              (found ++ [urljoin base_url href]) rest := by
          simp only [find_download_links_go]
          rw [hcond]
          simp
        rw [hstep, ih (found ++ [urljoin base_url href])]
        simp only [List.mem_append, List.mem_singleton]
        constructor
        · rintro ((h | h) | ⟨⟨h2, hh2, hj⟩, hm⟩)
          · exact Or.inl h
          · exact Or.inr ⟨⟨href, List.mem_cons_self _ _, h.symm⟩, by rw [h]; exact hmatch⟩
          · exact Or.inr ⟨⟨h2, List.mem_cons_of_mem _ hh2, hj⟩, hm⟩
        · rintro (h | ⟨⟨h2, hh2, hj⟩, hm⟩)
          · exact Or.inl (Or.inl h)
          · rcases List.mem_cons.mp hh2 with h2eq | h2mem
            · exact Or.inl (Or.inr (by rw [← hj, h2eq]))
            · exact Or.inr ⟨⟨h2, h2mem, hj⟩, hm⟩
    · have hmatch' : allowed_extensions.any
          (fun ext => py_endswith (py_lower (urljoin base_url href)) ext) = false := by
        simpa using hmatch
      have hcond : (allowed_extensions.any
          (fun ext => py_endswith (py_lower (urljoin base_url href)) ext) &&
            !(found.contains (urljoin base_url href))) = false := by
        rw [hmatch']
        rfl
      have hstep : find_download_links_go urljoin base_url allowed_extensions found
          (href :: rest) = find_download_links_go urljoin base_url allowed_extensions
            found rest := by
        simp only [find_download_links_go]
        rw [hcond]
        simp
      rw [hstep, ih found]
      constructor
      · rintro (h | ⟨⟨h2, hh2, hj⟩, hm⟩)
        · exact Or.inl h
        · exact Or.inr ⟨⟨h2, List.mem_cons_of_mem _ hh2, hj⟩, hm⟩
      · rintro (h | ⟨⟨h2, hh2, hj⟩, hm⟩)
        · exact Or.inl h
        · rcases List.mem_cons.mp hh2 with h2eq | h2mem
          · have hju : urljoin base_url href = url := h2eq ▸ hj
            exact absurd (by rw [hju]; exact hm) hmatch
          · exact Or.inr ⟨⟨h2, h2mem, hj⟩, hm⟩

/-- Case-insensitive suffix comparison, as the specification words it: both
the string and the suffix are lower-cased before the literal comparison. -/
def spec_endswith_ci (s suffix : String) : Bool :=
  py_endswith (py_lower s) (py_lower suffix)

/-- C1 counterexample: with allowed suffix ".PDF", a link whose resolved URL
is "http://e/a.pdf" ends with ".PDF" when compared case-insensitively, yet
link extraction drops it, because the source lower-cases only the URL and
compares the configured suffix literally. -/
theorem c1_counterexample :
    find_download_links (fun _ href => href) ["http://e/a.pdf"] "http://e/" [".PDF"] = [] ∧
    spec_endswith_ci "http://e/a.pdf" ".PDF" = true :=
  ⟨rfl, rfl⟩

/-- C1 (amended): a hyperlink's resolved URL is retained by link extraction
if and only if some href of the page resolves to it and its lower-cased form
literally ends with one of the allowed suffixes as configured; the comparison
is insensitive to the case of the URL but sensitive to the case of the
configured suffix. -/
theorem c1_retained_iff_lowered_url_endswith (urljoin : String → String → String)
    (hrefs : List String) (base_url : String) (allowed_extensions : List String)
    (url : String) :
    url ∈ find_download_links urljoin hrefs base_url allowed_extensions ↔
      (∃ href ∈ hrefs, urljoin base_url href = url) ∧
        allowed_extensions.any (fun ext => py_endswith (py_lower url) ext) = true := by
  rw [find_download_links, find_download_links_go_mem]
  simp

/-- C1 witness: the amended retention criterion evaluated on a concrete page
with a lower-case allowed suffix and an upper-case link. -/
theorem c1_retained_iff_lowered_url_endswith_witness :
    "http://e/b.PDF" ∈ find_download_links (fun _ href => href) ["http://e/b.PDF"]
        "http://e/" [".pdf"] ↔
      (∃ href ∈ ["http://e/b.PDF"], (fun _ h => h : String → String → String)
          "http://e/" href = "http://e/b.PDF") ∧
        ([".pdf"].any (fun ext => py_endswith (py_lower "http://e/b.PDF") ext) = true) :=
  c1_retained_iff_lowered_url_endswith (fun _ href => href) ["http://e/b.PDF"]
    "http://e/" [".pdf"] "http://e/b.PDF"

/-- C3 counterexample: the claim that a link is retained only if its PATH
ends with an allowed suffix fails: "http://e/get?f=a.pdf" is retained (the
raw resolved URL ends with ".pdf") although its path "/get" does not end
with ".pdf". -/
theorem c3_counterexample :
    find_download_links (fun _ href => href) ["http://e/get?f=a.pdf"] "http://e/" [".pdf"]
        = ["http://e/get?f=a.pdf"] ∧
    py_endswith (py_lower (urlparse_path "http://e/get?f=a.pdf")) ".pdf" = false :=
  ⟨rfl, rfl⟩

/-- C3 (amended): link extraction retains a link only if its raw resolved
URL, lower-cased, literally ends with an allowed suffix — the match is on the
raw resolved string, not on the URL's path; consequently a link whose path
ends with an allowed extension but which carries a trailing query string is
not matched. -/
theorem c3_suffix_match_is_on_raw_url (urljoin : String → String → String)
    (hrefs : List String) (base_url : String) (allowed_extensions : List String) :
    (∀ url ∈ find_download_links urljoin hrefs base_url allowed_extensions,
        allowed_extensions.any (fun ext => py_endswith (py_lower url) ext) = true) ∧
    find_download_links (fun _ href => href) ["http://e/a.pdf?download=1"] "http://e/"
        [".pdf"] = [] ∧
    py_endswith (py_lower (urlparse_path "http://e/a.pdf?download=1")) ".pdf" = true := by
  refine ⟨fun url hmem => ?_, rfl, rfl⟩
  exact ((c1_retained_iff_lowered_url_endswith urljoin hrefs base_url
    allowed_extensions url).mp hmem).2

/-- C3 witness: the raw-URL-only-if criterion evaluated on a concrete page. -/
theorem c3_suffix_match_is_on_raw_url_witness :
    [".pdf"].any (fun ext => py_endswith (py_lower "http://e/x.pdf") ext) = true :=
  (c3_suffix_match_is_on_raw_url (fun _ href => href) ["http://e/x.pdf"] "http://e/"
    [".pdf"]).1 "http://e/x.pdf" (by decide)

/-- C8: loading the download history is a total function (it never raises):
an absent history file yields the empty set with no warning, and a history
file whose content is not valid JSON yields the empty set with an observable
warning. -/
theorem c8_load_history_total (json_parse : String → Option JsonValue) :
    load_download_history none json_parse = ⟨[], false⟩ ∧
    ∀ content, json_parse content = none →
      load_download_history (some content) json_parse = ⟨[], true⟩ := by
  refine ⟨rfl, fun content h => ?_⟩
  simp [load_download_history, h]

/-- C8 witness: loading with an always-failing parser on a concrete corrupt
file, and with the file absent. -/
theorem c8_load_history_total_witness :
    load_download_history (some "not json") (fun _ => none) = ⟨[], true⟩ :=
  (c8_load_history_total (fun _ => none)).2 "not json" rfl

/-- C10 counterexample: a history file holding the syntactically valid JSON
value 42 IS treated as a failure: Python raises TypeError on `set(42)`, the
generic except branch catches it, and the load falls back to the empty set
with a warning — contradicting the claim that every valid JSON value of the
wrong shape is turned into a set with no warning. -/
theorem c10_counterexample :
    load_download_history (some "42")
        (fun s => if s = "42" then some (JsonValue.num 42) else none) = ⟨[], true⟩ :=
  rfl

/-- C10 (amended): a history file containing a single JSON string is not
treated as corruption: it loads as the set of the string's one-character
strings, with no warning and no empty-set fallback; but non-iterable JSON
values (numbers, booleans, null) do fall back to an empty set with a
warning. -/
theorem c10_json_string_loads_as_chars (json_parse : String → Option JsonValue)
    (content s : String) (h : json_parse content = some (JsonValue.str s)) :
    load_download_history (some content) json_parse =
      ⟨pyDedup (s.data.map (fun c => JsonValue.str ⟨[c]⟩)), false⟩ ∧
    load_download_history (some content) (fun _ => some (JsonValue.num 42)) =
      ⟨[], true⟩ := by
  constructor
  · simp [load_download_history, h, pySet]
  · rfl

/-- C10 witness: a history file holding the JSON string "aba" loads as the
two-element set of the strings "a" and "b", with no warning. -/
theorem c10_json_string_loads_as_chars_witness :
    load_download_history (some "x") (fun _ => some (JsonValue.str "aba")) =
      ⟨[JsonValue.str "a", JsonValue.str "b"], false⟩ ∧
    load_download_history (some "x") (fun _ => some (JsonValue.num 42)) = ⟨[], true⟩ :=
  c10_json_string_loads_as_chars (fun _ => some (JsonValue.str "aba")) "x" "aba" rfl

/-- C7: for every organization rule outside date, type and type_then_date,
organizing fails (returns no new path) and performs no relocation: the file
system is returned unchanged, so the staged file stays where it was. -/
theorem c7_unknown_rule_no_relocation (move_ok : Bool) (fs : List String)
    (today file_path base_download_folder rule_type : String)
    (h1 : rule_type ≠ "date") (h2 : rule_type ≠ "type")
    (h3 : rule_type ≠ "type_then_date") :
    organize_file move_ok fs today file_path base_download_folder rule_type = (none, fs) := by
  unfold organize_file
  split
  · rfl
  · simp [h1, h2, h3]

/-- C7 witness: the unknown rule "alphabetical" on a staged file. -/
theorem c7_unknown_rule_no_relocation_witness :
    organize_file true ["downloads/a.txt"] "2024-05-01" "downloads/a.txt" "downloads"
        "alphabetical" = (none, ["downloads/a.txt"]) :=
  c7_unknown_rule_no_relocation true ["downloads/a.txt"] "2024-05-01" "downloads/a.txt"
    "downloads" "alphabetical" (by decide) (by decide) (by decide)

/-- C5: file download with no usable filename (the URL's path has no final
segment) fails without touching the network or the file system — the result
is the same for every network oracle; and when a file of the target name
already exists in the staging directory, the existing path is returned as
success, again with no network call and no file-system change. -/
theorem c5_download_short_circuits (fetch : String → Option Unit) (fs : List String)
    (file_url destination_folder : String) :
    (basename (urlparse_path file_url) = "" →
      download_file fetch fs file_url destination_folder = (none, fs)) ∧
    (basename (urlparse_path file_url) ≠ "" →
      fs.contains (pjoin destination_folder (basename (urlparse_path file_url))) = true →
      download_file fetch fs file_url destination_folder =
        (some (pjoin destination_folder (basename (urlparse_path file_url))), fs)) := by
  constructor
  · intro h
    simp [download_file, h]
  · intro h hex
    have hex' : pjoin destination_folder (basename (urlparse_path file_url)) ∈ fs := by
      simpa [List.contains, List.elem_iff] using hex
    simp [download_file, h, hex']

/-- C5 witness: a URL with no path segment fails with any oracle; a URL whose
target file is already staged returns it even when the network would fail. -/
theorem c5_download_short_circuits_witness :
    download_file (fun _ => none) ["downloads/a.pdf"] "http://e" "downloads" = (none, []) ∨
    download_file (fun _ => none) ["downloads/a.pdf"] "http://e/a.pdf" "downloads" =
      (some (pjoin "downloads" (basename (urlparse_path "http://e/a.pdf"))),
        ["downloads/a.pdf"]) :=
  Or.inr ((c5_download_short_circuits (fun _ => none) ["downloads/a.pdf"] "http://e/a.pdf"
    "downloads").2 (by decide) (by decide))

/-- C2: a link's processing adds the link to the in-memory history only when
its download and its organization both succeed; whenever the download fails,
or the download succeeds and the subsequent organization fails, the history
set is left exactly as it was. -/
theorem c2_history_added_only_on_success (force : Bool) (fetch : String → Option Unit)
    (move_ok : Bool) (today base rule : String) (st : RunState) (link : String) :
    (((download_file fetch st.fs link base).1 = none ∨
        (∀ p fs1, download_file fetch st.fs link base = (some p, fs1) →
          (organize_file move_ok fs1 today p base rule).1 = none)) →
      (process_link force fetch move_ok today base rule st link).history = st.history) ∧
    ((process_link force fetch move_ok today base rule st link).history ≠ st.history →
      ∃ p fs1 q fs2, download_file fetch st.fs link base = (some p, fs1) ∧
        organize_file move_ok fs1 today p base rule = (some q, fs2) ∧
        (process_link force fetch move_ok today base rule st link).history =
          insert link st.history) := by
  by_cases hskip : link ∈ st.history ∧ force = false
  · have hpl : process_link force fetch move_ok today base rule st link = st := by
      unfold process_link
      rw [if_pos hskip]
    rw [hpl]
    exact ⟨fun _ => rfl, fun hne => absurd rfl hne⟩
  · rcases hd : download_file fetch st.fs link base with ⟨p?, fs1⟩
    cases p? with
    | none =>
      have hpl : process_link force fetch move_ok today base rule st link =
          ⟨fs1, st.history⟩ := by
        unfold process_link
        rw [if_neg hskip, hd]
      rw [hpl]
      exact ⟨fun _ => rfl, fun hne => absurd rfl hne⟩
    | some p =>
      rcases ho : organize_file move_ok fs1 today p base rule with ⟨q?, fs2⟩
      cases q? with
      | none =>
        have hpl : process_link force fetch move_ok today base rule st link =
            ⟨fs2, st.history⟩ := by
          unfold process_link
          rw [if_neg hskip, hd]
          dsimp only
          rw [ho]
        rw [hpl]
        exact ⟨fun _ => rfl, fun hne => absurd rfl hne⟩
      | some q =>
        have hpl : process_link force fetch move_ok today base rule st link =
            ⟨fs2, insert link st.history⟩ := by
          unfold process_link
          rw [if_neg hskip, hd]
          dsimp only
          rw [ho]
        rw [hpl]
        constructor
        · rintro (hfail | hfail)
          · simp at hfail
          · have h2 := hfail p fs1 rfl
            rw [ho] at h2
            simp at h2
        · intro _
          exact ⟨p, fs1, q, fs2, rfl, ho, rfl⟩

/-- C2 witness: a link whose download fails leaves the history unchanged. -/
theorem c2_history_added_only_on_success_witness :
    (process_link false (fun _ => none) true "2024-05-01" "downloads" "date"
        ⟨[], ∅⟩ "http://e/a.pdf").history = (∅ : Finset String) :=
  (c2_history_added_only_on_success false (fun _ => none) true "2024-05-01" "downloads"
      "date" ⟨[], ∅⟩ "http://e/a.pdf").1 (Or.inl (by decide))

/-!
Lemmas for collision resolution (claims C4 and C9).
-/

theorem mem_of_getLast?_eq {α : Type} {l : List α} {a : α} (h : l.getLast? = some a) :
    a ∈ l := by
  rcases List.mem_getLast?_eq_getLast (l := l) (x := a) (by rw [h]; rfl) with ⟨hne, heq⟩
  rw [heq]
  exact List.getLast_mem hne

theorem splitext_data_append (p : String) :
    (splitext p).1.data ++ (splitext p).2.data = p.data := by
  unfold splitext
  rcases h : extSplitIndex p.data with _ | i <;> simp [List.take_append_drop]

theorem extSplitIndex_bounds (cs : List Char) (i : Nat) (h : extSplitIndex cs = some i) :
    1 ≤ i ∧ i < cs.length := by
  unfold extSplitIndex at h
  rcases hl : ((List.range cs.length).filter (fun k => cs.getD k ' ' == '.')).getLast?
      with _ | j
  · rw [hl] at h
    simp at h
  · rw [hl] at h
    dsimp only at h
    by_cases hany : (List.range j).any (fun k => cs.getD k ' ' != '.') = true
    · rw [if_pos hany] at h
      injection h with hji
      rw [hji] at hany hl
      constructor
      · rcases List.any_eq_true.mp hany with ⟨k, hk, _⟩
        have := List.mem_range.mp hk
        omega
      · have hmem : i ∈ (List.range cs.length).filter (fun k => cs.getD k ' ' == '.') :=
          mem_of_getLast?_eq hl
        exact List.mem_range.mp (List.mem_filter.mp hmem).1
    · rw [if_neg hany] at h
      cases h

theorem splitext_stem_eq_nil (p : String) (h : (splitext p).1.data = []) :
    p.data = [] ∧ (splitext p).2.data = [] := by
  rcases he : extSplitIndex p.data with _ | i
  · unfold splitext at h ⊢
    rw [he] at h ⊢
    exact ⟨h, rfl⟩
  · exfalso
    unfold splitext at h
    rw [he] at h
    dsimp only at h
    have hb := extSplitIndex_bounds p.data i he
    have hlen := congrArg List.length h
    simp only [List.length_take, List.length_nil] at hlen
    omega

theorem splitext_stem_head (p : String) (c : Char) (t : List Char)
    (h : (splitext p).1.data = c :: t) : p.data.head? = some c := by
  rcases he : extSplitIndex p.data with _ | i
  · unfold splitext at h
    rw [he] at h
    dsimp only at h
    rw [h]
    rfl
  · unfold splitext at h
    rw [he] at h
    dsimp only at h
    cases hp : p.data with
    | nil =>
      rw [hp] at h
      simp at h
    | cons d rest =>
      rw [hp] at h
      cases i with
      | zero =>
        simp at h
      | succ i =>
        rw [List.take_succ_cons] at h
        injection h with h1 h2
        rw [h1]
        rfl

/-- Directory part that `pjoin` glues in front of a relative second
component. -/
def joinPre (a : String) : List Char :=
  if a.data = [] then []
  else if a.data.getLast? = some '/' then a.data
  else a.data ++ ['/']

theorem pjoin_of_abs (a b : String) (h : b.data.head? = some '/') : pjoin a b = b := by
  unfold pjoin
  rw [if_pos h]

theorem pjoin_data_of_nonabs (a b : String) (h : ¬b.data.head? = some '/') :
    (pjoin a b).data = joinPre a ++ b.data := by
  unfold pjoin joinPre
  rw [if_neg h]
  by_cases h1 : a.data = []
  · rw [if_pos h1, if_pos h1]
    simp
  · rw [if_neg h1, if_neg h1]
    by_cases h2 : a.data.getLast? = some '/'
    · rw [if_pos h2, if_pos h2]
    · rw [if_neg h2, if_neg h2]
      simp

/-- Sequence of destination paths tried by the collision loop: index 0 is the
plain destination name, index k ≥ 1 the k-th parenthesised candidate. -/
def candSeq (dir file_name : String) : Nat → String
  | 0 => pjoin dir file_name
  | k + 1 => pjoin dir (mkCand (splitext file_name).1 (splitext file_name).2 (k + 1))

/-- Argument strings handed to pjoin by the collision loop. -/
def candArg (file_name : String) : Nat → String
  | 0 => file_name
  | k + 1 => mkCand (splitext file_name).1 (splitext file_name).2 (k + 1)

theorem candSeq_eq_pjoin (dir file_name : String) (n : Nat) :
    candSeq dir file_name n = pjoin dir (candArg file_name n) := by
  cases n <;> rfl

theorem candArg_data_zero (file_name : String) :
    (candArg file_name 0).data =
      (splitext file_name).1.data ++ (splitext file_name).2.data := by
  rw [splitext_data_append]
  rfl

theorem candArg_data_succ (file_name : String) (k : Nat) :
    (candArg file_name (k + 1)).data =
      (splitext file_name).1.data ++
        ('(' :: natReprL (k + 1) ++ ')' :: (splitext file_name).2.data) := by
  show (mkCand (splitext file_name).1 (splitext file_name).2 (k + 1)).data = _
  unfold mkCand
  simp

theorem candArg_head_eq (file_name : String) (n m : Nat) :
    (candArg file_name n).data.head? = some '/' ↔
      (candArg file_name m).data.head? = some '/' := by
  rcases hs : (splitext file_name).1.data with _ | ⟨c, t⟩
  · have hnil := splitext_stem_eq_nil file_name hs
    have harg : ∀ k, (candArg file_name k).data.head? ≠ some '/' := by
      intro k
      cases k with
      | zero =>
        rw [candArg_data_zero, hs, hnil.2]
        simp
      | succ k =>
        rw [candArg_data_succ, hs]
        simp
    constructor
    · intro h
      exact absurd h (harg n)
    · intro h
      exact absurd h (harg m)
  · have harg : ∀ k, (candArg file_name k).data.head? = some c := by
      intro k
      cases k with
      | zero =>
        rw [candArg_data_zero, hs]
        rfl
      | succ k =>
        rw [candArg_data_succ, hs]
        rfl
    rw [harg n, harg m]

theorem candArg_injective (file_name : String) : Function.Injective (candArg file_name) := by
  intro j k h
  have hd := congrArg String.data h
  have hn1 : natReprL (j + 1) ≠ [] := natReprL_ne_nil (j + 1)
  have hn2 : natReprL (k + 1) ≠ [] := natReprL_ne_nil (k + 1)
  match j, k with
  | 0, 0 => rfl
  | 0, k + 1 =>
    exfalso
    rw [candArg_data_zero, candArg_data_succ] at hd
    have := congrArg List.length hd
    simp only [List.length_append, List.length_cons] at this
    have hpos : 0 < (natReprL (k + 1)).length := List.length_pos.mpr (natReprL_ne_nil (k + 1))
    omega
  | j + 1, 0 =>
    exfalso
    rw [candArg_data_zero, candArg_data_succ] at hd
    have := congrArg List.length hd
    simp only [List.length_append, List.length_cons] at this
    have hpos : 0 < (natReprL (j + 1)).length := List.length_pos.mpr (natReprL_ne_nil (j + 1))
    omega
  | j + 1, k + 1 =>
    rw [candArg_data_succ, candArg_data_succ] at hd
    have h1 := List.append_cancel_left hd
    injection h1 with h2 h3
    have h4 := List.append_cancel_right h3
    have := natReprL_injective h4
    omega

theorem candSeq_injective (dir file_name : String) :
    Function.Injective (candSeq dir file_name) := by
  intro j k h
  rw [candSeq_eq_pjoin, candSeq_eq_pjoin] at h
  by_cases habs : (candArg file_name j).data.head? = some '/'
  · have habs2 : (candArg file_name k).data.head? = some '/' :=
      (candArg_head_eq file_name k j).mpr habs
    rw [pjoin_of_abs _ _ habs, pjoin_of_abs _ _ habs2] at h
    exact candArg_injective file_name h
  · have habs2 : ¬(candArg file_name k).data.head? = some '/' := by
      intro hc
      exact habs ((candArg_head_eq file_name k j).mp hc)
    have hd := congrArg String.data h
    rw [pjoin_data_of_nonabs _ _ habs, pjoin_data_of_nonabs _ _ habs2] at hd
    have hdd := List.append_cancel_left hd
    exact candArg_injective file_name (String.ext hdd)

theorem resolve_collision_loop_spec (fs : List String) (dir file_name : String) :
    ∀ (fuel i : Nat),
      (∃ j, i ≤ j ∧ j < i + fuel ∧ fs.contains (candSeq dir file_name j) = false) →
      ∃ d, d < fuel ∧
        resolve_collision_loop fs dir (splitext file_name).1 (splitext file_name).2 fuel
            (candSeq dir file_name i) (i + 1) = candSeq dir file_name (i + d) ∧
        fs.contains (candSeq dir file_name (i + d)) = false ∧
        ∀ e, e < d → fs.contains (candSeq dir file_name (i + e)) = true := by
  intro fuel
  induction fuel with
  | zero =>
    rintro i ⟨j, h1, h2, _⟩
    omega
  | succ fuel ih =>
    rintro i ⟨j, hij, hjlt, hjfree⟩
    by_cases hc : fs.contains (candSeq dir file_name i) = true
    · have hstep : resolve_collision_loop fs dir (splitext file_name).1
          (splitext file_name).2 (fuel + 1) (candSeq dir file_name i) (i + 1) =
          resolve_collision_loop fs dir (splitext file_name).1 (splitext file_name).2 fuel
            (candSeq dir file_name (i + 1)) (i + 1 + 1) := by
        conv_lhs => unfold resolve_collision_loop
        rw [if_pos hc]
        rfl
      have hji : i < j := by
        rcases Nat.eq_or_lt_of_le hij with heq | hlt
        · exfalso
          rw [← heq] at hjfree
          rw [hjfree] at hc
          cases hc
        · exact hlt
      obtain ⟨d, hd, heq2, hfr, hall⟩ := ih (i + 1) ⟨j, by omega, by omega, hjfree⟩
      have hidx : i + 1 + d = i + (d + 1) := by omega
      rw [hidx] at heq2 hfr
      refine ⟨d + 1, by omega, ?_, hfr, ?_⟩
      · rw [hstep]
        exact heq2
      · intro e he
        cases e with
        | zero => exact hc
        | succ e =>
          have hidx2 : i + (e + 1) = i + 1 + e := by omega
          rw [hidx2]
          exact hall e (by omega)
    · have hc' : fs.contains (candSeq dir file_name i) = false := by
        cases hcc : fs.contains (candSeq dir file_name i)
        · rfl
        · exact absurd hcc hc
      refine ⟨0, by omega, ?_, hc', fun e he => absurd he (by omega)⟩
      conv_lhs => unfold resolve_collision_loop
      rw [if_neg hc]
      rfl

theorem exists_free_candidate (fs : List String) (dir file_name : String) :
    ∃ j, j < fs.length + 1 ∧ fs.contains (candSeq dir file_name j) = false := by
  by_contra hcon
  push_neg at hcon
  have hmem : ∀ j, j < fs.length + 1 → candSeq dir file_name j ∈ fs := by
    intro j hj
    have h1 := hcon j hj
    have h2 : fs.contains (candSeq dir file_name j) = true := by
      cases hcc : fs.contains (candSeq dir file_name j)
      · exact absurd hcc h1
      · rfl
    simpa [List.contains, List.elem_iff] using h2
  have hsub : (Finset.range (fs.length + 1)).image (candSeq dir file_name) ⊆
      fs.toFinset := by
    intro x hx
    rcases Finset.mem_image.mp hx with ⟨j, hj, hjx⟩
    rw [← hjx]
    exact List.mem_toFinset.mpr (hmem j (Finset.mem_range.mp hj))
  have hcard1 : ((Finset.range (fs.length + 1)).image (candSeq dir file_name)).card =
      fs.length + 1 := by
    rw [Finset.card_image_of_injective _ (candSeq_injective dir file_name)]
    simp
  have hcard2 := Finset.card_le_card hsub
  have hcard3 := List.toFinset_card_le fs
  omega

theorem resolve_collision_free (fs : List String) (dir file_name : String) :
    fs.contains (resolve_collision fs dir file_name) = false := by
  obtain ⟨j, hj, hfree⟩ := exists_free_candidate fs dir file_name
  obtain ⟨d, hd, heq, hfr, hall⟩ := resolve_collision_loop_spec fs dir file_name
    (fs.length + 1) 0 ⟨j, by omega, by omega, hfree⟩
  simp only [Nat.zero_add] at heq hfr
  have hres : resolve_collision fs dir file_name = candSeq dir file_name d := heq
  rw [hres]
  exact hfr

/-- C4: when the computed destination path is free, the file keeps its plain
name; when it is taken, the chosen destination is a parenthesised numeric
disambiguator immediately before the extension, with counter k at least 1,
chosen free, and every smaller counter taken (the loop increments until a
free name is found); concretely, organizing two different files both named
a.txt into the same destination yields a.txt and then a(1).txt. -/
theorem c4_collision_disambiguation (fs : List String) (dir file_name : String) :
    (fs.contains (pjoin dir file_name) = false →
      resolve_collision fs dir file_name = pjoin dir file_name) ∧
    (fs.contains (pjoin dir file_name) = true →
      ∃ k, 1 ≤ k ∧
        resolve_collision fs dir file_name =
          pjoin dir (mkCand (splitext file_name).1 (splitext file_name).2 k) ∧
        fs.contains (pjoin dir (mkCand (splitext file_name).1 (splitext file_name).2 k))
          = false ∧
        ∀ j, 1 ≤ j → j < k →
          fs.contains (pjoin dir (mkCand (splitext file_name).1 (splitext file_name).2 j))
            = true) ∧
    organize_file true ["downloads/a.txt"] "2024-05-01" "downloads/a.txt" "downloads"
        "date" = (some "downloads/2024-05-01/a.txt", ["downloads/2024-05-01/a.txt"]) ∧
    organize_file true ["downloads/2024-05-01/a.txt", "downloads/a.txt"] "2024-05-01"
        "downloads/a.txt" "downloads" "date" =
      (some "downloads/2024-05-01/a(1).txt",
        ["downloads/2024-05-01/a.txt", "downloads/2024-05-01/a(1).txt"]) := by
  refine ⟨?_, ?_, by decide, by decide⟩
  · intro hfree
    obtain ⟨d, hd, heq, hfr, hall⟩ := resolve_collision_loop_spec fs dir file_name
      (fs.length + 1) 0 ⟨0, by omega, by omega, hfree⟩
    simp only [Nat.zero_add] at heq hfr hall
    cases d with
    | zero => exact heq
    | succ d =>
      exfalso
      have h0 : fs.contains (pjoin dir file_name) = true := hall 0 (by omega)
      rw [h0] at hfree
      cases hfree
  · intro hfound
    obtain ⟨j, hj, hfree⟩ := exists_free_candidate fs dir file_name
    obtain ⟨d, hd, heq, hfr, hall⟩ := resolve_collision_loop_spec fs dir file_name
      (fs.length + 1) 0 ⟨j, by omega, by omega, hfree⟩
    simp only [Nat.zero_add] at heq hfr hall
    cases d with
    | zero =>
      exfalso
      have : fs.contains (pjoin dir file_name) = false := hfr
      rw [this] at hfound
      cases hfound
    | succ d =>
      refine ⟨d + 1, by omega, heq, hfr, ?_⟩
      intro j2 hj1 hj2
      have h2 := hall j2 (by omega)
      cases j2 with
      | zero => omega
      | succ j2 => exact h2

/-- C4 witness: with the plain destination taken and the first numbered
candidate free, collision resolution picks counter 1. -/
theorem c4_collision_disambiguation_witness :
    resolve_collision ["d/a.txt"] "d" "a.txt" = "d/a(1).txt" := by
  have h := (c4_collision_disambiguation ["d/a.txt"] "d" "a.txt").1
  have h2 := (c4_collision_disambiguation ["d/a.txt"] "d" "a.txt").2.1 (by decide)
  obtain ⟨k, hk1, hk2, hk3, hk4⟩ := h2
  have hkval : k = 1 := by
    by_contra hne
    have h1 := hk4 1 (by omega) (by omega)
    revert h1
    decide
  rw [hkval] at hk2
  rw [hk2]
  decide

/-- C9: with non-empty target URLs and allowed extensions, the run is defined
(the embedding is total, so every loop over URLs and links terminates) and
reaches the history persistence decision of the final step; and the
collision-resolution loop terminates by finding a free destination for every
finite set of existing files: its result is never an existing path. -/
theorem c9_run_terminates (force : Bool) (fetch : String → Option Unit) (move_ok : Bool)
    (today base rule : String) (urljoin : String → String → String)
    (page : String → Option (List String)) (target_urls allowed_extensions : List String)
    (fs0 : List String) (h0 : Finset String)
    (hurls : target_urls ≠ []) (hexts : allowed_extensions ≠ []) :
    main_run force fetch move_ok today base rule urljoin page target_urls
        allowed_extensions fs0 h0 =
      some (run_urls force fetch move_ok today base rule urljoin page allowed_extensions
          ⟨fs0, h0⟩ target_urls,
        main_saves h0.card (run_urls force fetch move_ok today base rule urljoin page
          allowed_extensions ⟨fs0, h0⟩ target_urls).history) ∧
    ∀ (fs : List String) (dir file_name : String),
      fs.contains (resolve_collision fs dir file_name) = false := by
  refine ⟨?_, fun fs dir file_name => resolve_collision_free fs dir file_name⟩
  unfold main_run
  rw [if_neg hurls, if_neg hexts]

/-- C9 witness: a one-URL, one-extension configuration with an unreachable
page runs to completion and does not save, and a concrete collision
resolution yields a fresh path. -/
theorem c9_run_terminates_witness :
    main_run false (fun _ => none) true "2024-05-01" "downloads" "date" (fun _ h => h)
        (fun _ => none) ["http://e/"] [".pdf"] [] ∅ =
      some (run_urls false (fun _ => none) true "2024-05-01" "downloads" "date"
          (fun _ h => h) (fun _ => none) [".pdf"] ⟨[], ∅⟩ ["http://e/"],
        main_saves (∅ : Finset String).card
          (run_urls false (fun _ => none) true "2024-05-01" "downloads" "date"
            (fun _ h => h) (fun _ => none) [".pdf"] ⟨[], ∅⟩ ["http://e/"]).history) ∧
    (["d/a.txt"] : List String).contains (resolve_collision ["d/a.txt"] "d" "a.txt")
      = false := by
  have h := c9_run_terminates false (fun _ => none) true "2024-05-01" "downloads" "date"
    (fun _ h => h) (fun _ => none) ["http://e/"] [".pdf"] [] ∅ (by decide) (by decide)
  exact ⟨h.1, h.2 ["d/a.txt"] "d" "a.txt"⟩

/-!
Lemmas for history growth (claim C6).
-/

theorem process_link_history_mono (force : Bool) (fetch : String → Option Unit)
    (move_ok : Bool) (today base rule : String) (st : RunState) (link : String) :
    st.history ⊆ (process_link force fetch move_ok today base rule st link).history := by
  by_cases hskip : link ∈ st.history ∧ force = false
  · have hpl : process_link force fetch move_ok today base rule st link = st := by
      unfold process_link
      rw [if_pos hskip]
    rw [hpl]
  · rcases hd : download_file fetch st.fs link base with ⟨p?, fs1⟩
    cases p? with
    | none =>
      have hpl : process_link force fetch move_ok today base rule st link =
          ⟨fs1, st.history⟩ := by
        unfold process_link
        rw [if_neg hskip, hd]
      rw [hpl]
    | some p =>
      rcases ho : organize_file move_ok fs1 today p base rule with ⟨q?, fs2⟩
      cases q? with
      | none =>
        have hpl : process_link force fetch move_ok today base rule st link =
            ⟨fs2, st.history⟩ := by
          unfold process_link
          rw [if_neg hskip, hd]
          dsimp only
          rw [ho]
        rw [hpl]
      | some q =>
        have hpl : process_link force fetch move_ok today base rule st link =
            ⟨fs2, insert link st.history⟩ := by
          unfold process_link
          rw [if_neg hskip, hd]
          dsimp only
          rw [ho]
        rw [hpl]
        exact Finset.subset_insert _ _

theorem process_links_history_mono (force : Bool) (fetch : String → Option Unit)
    (move_ok : Bool) (today base rule : String) :
    ∀ (links : List String) (st : RunState),
      st.history ⊆ (process_links force fetch move_ok today base rule st links).history := by
  intro links
  induction links with
  | nil =>
    intro st
    exact Finset.Subset.refl _
  | cons link rest ih =>
    intro st
    exact (process_link_history_mono force fetch move_ok today base rule st link).trans
      (ih (process_link force fetch move_ok today base rule st link))

theorem run_url_history_mono (force : Bool) (fetch : String → Option Unit)
    (move_ok : Bool) (today base rule : String) (urljoin : String → String → String)
    (page : String → Option (List String)) (allowed_extensions : List String)
    (st : RunState) (url : String) :
    st.history ⊆ (run_url force fetch move_ok today base rule urljoin page
      allowed_extensions st url).history := by
  unfold run_url
  rcases hp : page url with _ | hrefs
  · exact Finset.Subset.refl _
  · exact process_links_history_mono force fetch move_ok today base rule _ st

theorem run_urls_history_mono (force : Bool) (fetch : String → Option Unit)
    (move_ok : Bool) (today base rule : String) (urljoin : String → String → String)
    (page : String → Option (List String)) (allowed_extensions : List String) :
    ∀ (target_urls : List String) (st : RunState),
      st.history ⊆ (run_urls force fetch move_ok today base rule urljoin page
        allowed_extensions st target_urls).history := by
  intro target_urls
  induction target_urls with
  | nil =>
    intro st
    exact Finset.Subset.refl _
  | cons url rest ih =>
    intro st
    exact (run_url_history_mono force fetch move_ok today base rule urljoin page
      allowed_extensions st url).trans
      (ih (run_url force fetch move_ok today base rule urljoin page allowed_extensions
        st url))

/-- C6: across a whole run the in-memory history only grows (the history
loaded at the start is contained in the final history), and the history file
is rewritten at the end exactly when the final history differs from the
loaded one — in particular a run that only re-recorded already present URLs
(as a force run over known links does) leaves the history file unchanged. -/
theorem c6_history_saved_iff_grew (force : Bool) (fetch : String → Option Unit)
    (move_ok : Bool) (today base rule : String) (urljoin : String → String → String)
    (page : String → Option (List String)) (allowed_extensions : List String)
    (target_urls : List String) (fs0 : List String) (h0 : Finset String) :
    h0 ⊆ (run_urls force fetch move_ok today base rule urljoin page allowed_extensions
        ⟨fs0, h0⟩ target_urls).history ∧
    (main_saves h0.card (run_urls force fetch move_ok today base rule urljoin page
        allowed_extensions ⟨fs0, h0⟩ target_urls).history = true ↔
      (run_urls force fetch move_ok today base rule urljoin page allowed_extensions
        ⟨fs0, h0⟩ target_urls).history ≠ h0) := by
  have hsub := run_urls_history_mono force fetch move_ok today base rule urljoin page
    allowed_extensions target_urls ⟨fs0, h0⟩
  refine ⟨hsub, ?_⟩
  unfold main_saves
  rw [decide_eq_true_eq]
  constructor
  · intro hlt heq
    rw [heq] at hlt
    exact lt_irrefl _ hlt
  · intro hne
    have hss : h0 ⊂ (run_urls force fetch move_ok today base rule urljoin page
        allowed_extensions ⟨fs0, h0⟩ target_urls).history :=
      Finset.ssubset_iff_subset_ne.mpr ⟨hsub, fun h => hne h.symm⟩
    exact Finset.card_lt_card hss

/-- C6 witness: a run over one unreachable page keeps the loaded history and
does not save. -/
theorem c6_history_saved_iff_grew_witness :
    main_saves ({"http://e/a.pdf"} : Finset String).card
      (run_urls false (fun _ => none) true "2024-05-01" "downloads" "date"
        (fun _ h => h) (fun _ => none) [".pdf"] ⟨[], {"http://e/a.pdf"}⟩
        ["http://e/"]).history = false := by
  have h := (c6_history_saved_iff_grew false (fun _ => none) true "2024-05-01" "downloads"
    "date" (fun _ h => h) (fun _ => none) [".pdf"] ["http://e/"] []
    {"http://e/a.pdf"}).2
  have hrun : (run_urls false (fun _ => none) true "2024-05-01" "downloads" "date"
      (fun _ h => h) (fun _ => none) [".pdf"] ⟨[], {"http://e/a.pdf"}⟩
      ["http://e/"]).history = {"http://e/a.pdf"} := rfl
  cases hres : main_saves ({"http://e/a.pdf"} : Finset String).card
      (run_urls false (fun _ => none) true "2024-05-01" "downloads" "date"
        (fun _ h => h) (fun _ => none) [".pdf"] ⟨[], {"http://e/a.pdf"}⟩
        ["http://e/"]).history with
  | false => rfl
  | true =>
    exfalso
    exact (h.mp hres) hrun
